import Mathlib

/-!
Verification development for a small PDF question-answering backend
(single source file `app.py`).  The source is shallowly embedded:
strings are `List Char`, the external PDF parser and the remote
completion endpoint are black boxes represented by explicit outcome
values, and exceptions are `Except` values.
-/

namespace PdfBackend

/-- Whitespace as matched by the \s class and by str.isspace on
Python 3 unicode strings (Py_UNICODE_ISSPACE). -/
def isPySpace (c : Char) : Bool :=
  let n := c.toNat
  (0x09 ≤ n && n ≤ 0x0D) || (0x1C ≤ n && n ≤ 0x1F) || n == 0x20 ||
    n == 0x85 || n == 0xA0 || n == 0x1680 ||
    (0x2000 ≤ n && n ≤ 0x200A) || n == 0x2028 || n == 0x2029 ||
    n == 0x202F || n == 0x205F || n == 0x3000

/-- ASCII lowercase letter, the character class [a-z] of the
de-hyphenation regex. -/
def isLowerAZ (c : Char) : Bool :=
  0x61 ≤ c.toNat && c.toNat ≤ 0x7A

/-- Bullet character U+2022, the target of the fifth cleaning step. -/
def bulletChar : Char := Char.ofNat 0x2022

/-- Non-breaking space U+00A0. -/
def nbspChar : Char := Char.ofNat 0xA0

/-- Replacement text for a bullet: the source file replaces U+2022 by
the literal mis-encoded sequence U+00E2 U+20AC U+00A2 followed by a
space. -/
def bulletRepl : List Char :=
  [Char.ofNat 0xE2, Char.ofNat 0x20AC, Char.ofNat 0xA2, ' ']

/-- Scan for the first closing angle bracket; on success return the
remainder after it.  This models the backtracking-free search the
regex <[^>]+> performs after the first middle character. -/
def scanClose : List Char → Option (List Char)
  | [] => none
  | c :: rest => if c = '>' then some rest else scanClose rest

/-- Given the characters following an opening angle bracket, decide
whether a full match of <[^>]+> starts at that bracket; on success
return the remainder after the closing bracket.  The middle must be
nonempty and free of closing brackets. -/
def scanTag : List Char → Option (List Char)
  | [] => none
  | c :: rest => if c = '>' then none else scanClose rest

/-- Fuel-indexed form of the first cleaning step,
re.sub(r'<[^>]+>', ' ', text): each leftmost tag match is replaced by
one space; an opening bracket with no match is kept. -/
def stripTagsF : Nat → List Char → List Char
  | 0, l => l
  | _ + 1, [] => []
  | fuel + 1, c :: rest =>
    if c = '<' then
      match scanTag rest with
      | some rest2 => ' ' :: stripTagsF fuel rest2
      | none => c :: stripTagsF fuel rest
    else c :: stripTagsF fuel rest

/-- First cleaning step: replace every HTML/XML-style tag by a space. -/
def stripTags (l : List Char) : List Char := stripTagsF l.length l

/-- Second cleaning step, text.replace of a double newline by a single
newline: left-to-right, non-overlapping. -/
def collapseNN : List Char → List Char
  | '\n' :: '\n' :: rest => '\n' :: collapseNN rest
  | c :: rest => c :: collapseNN rest
  | [] => []

/-- Third cleaning step, re.sub(r'\s+', ' ', text): every maximal run
of whitespace becomes a single space. -/
def collapseWs : List Char → List Char
  | [] => []
  | c :: rest =>
    if isPySpace c then
      match rest with
      | [] => [' ']
      | c2 :: _ => if isPySpace c2 then collapseWs rest else ' ' :: collapseWs rest
    else c :: collapseWs rest

/-- Fourth cleaning step, re.sub with a hyphen-space pattern and a
lowercase lookahead: each occurrence of hyphen-space immediately
followed by an ASCII lowercase letter is deleted, the letter kept. -/
def dehyphen : List Char → List Char
  | '-' :: ' ' :: c :: rest =>
    if isLowerAZ c then dehyphen (c :: rest)
    else '-' :: dehyphen (' ' :: c :: rest)
  | c :: rest => c :: dehyphen rest
  | [] => []

/-- Fifth cleaning step: replace each bullet character by the legacy
four-character replacement sequence. -/
def bulletStep : List Char → List Char
  | [] => []
  | c :: rest =>
    if c = bulletChar then bulletRepl ++ bulletStep rest
    else c :: bulletStep rest

/-- Sixth cleaning step: replace each non-breaking space by a plain
space. -/
def nbspStep (l : List Char) : List Char :=
  l.map (fun c => if c = nbspChar then ' ' else c)

/-- Drop trailing whitespace, the right half of str.strip. -/
def stripEnd (l : List Char) : List Char :=
  ((l.reverse).dropWhile isPySpace).reverse

/-- Seventh cleaning step, str.strip: drop leading and trailing
whitespace. -/
def pyStrip (l : List Char) : List Char :=
  stripEnd (l.dropWhile isPySpace)

/-- The function clean_text of app.py: the seven-step normalization
pipeline applied in source order. -/
def clean_text (text : List Char) : List Char :=
  pyStrip (nbspStep (bulletStep (dehyphen (collapseWs (collapseNN (stripTags text))))))

/-- Outcome of handing a byte stream or file path to the external PDF
library: either the list of per-page extracted texts, or the message
of the exception the library raised (corrupt file, encrypted file,
unsupported format). -/
inductive PdfOutcome where
  | ok (pages : List (List Char))
  | fail (msg : List Char)

/-- Concatenation performed by both extraction loops of app.py: each
page text followed by one newline, in page order. -/
def joinPages (pages : List (List Char)) : List Char :=
  pages.foldr (fun p acc => p ++ '\n' :: acc) []

/-- ASCII lowercasing.  The source calls str.lower before comparing
with the literal pdf; on the three letters p, d, f only the ASCII
case fold can make the comparison succeed, so this is observationally
the same test. -/
def lowerAscii (c : Char) : Char :=
  if 0x41 ≤ c.toNat && c.toNat ≤ 0x5A then Char.ofNat (c.toNat + 32) else c

/-- Substring after the last dot, filename.rsplit with a dot and
maxsplit one, second component. -/
def extAfterLastDot (s : List Char) : List Char :=
  ((s.reverse).takeWhile (fun c => c ≠ '.')).reverse

/-- The helper allowed_file of app.py: the filename must contain a dot
and the lowercased part after the last dot must lie in the allowed set,
which contains only pdf. -/
def allowed_file (filename : List Char) : Bool :=
  filename.contains '.' && (extAfterLastDot filename).map lowerAscii == "pdf".toList

/-- One record of the process-wide uploaded_files mapping. -/
structure StoredFile where
  file_id : List Char
  filename : List Char
  text : List Char
deriving DecidableEq

/-- Lookup of the text field, uploaded_files.get(file_id, dict()).get
of the text key. -/
def storeText : List StoredFile → List Char → Option (List Char)
  | [], _ => none
  | e :: rest, fid => if e.file_id = fid then some e.text else storeText rest fid

/-- Incoming multipart upload request: whether a file part named file
is present, the filename the client sent, and what the PDF library
does with the file stream. -/
structure UploadRequest where
  hasFilePart : Bool
  filename : List Char
  pdf : PdfOutcome

/-- JSON body of an upload response. -/
inductive UploadBody where
  | err (msg : List Char)
  | ok (file_id : List Char) (filename : List Char)
      (text_length : Nat) (text_preview : List Char)
deriving DecidableEq

/-- HTTP status, body and resulting store of a completed upload
request. -/
structure UploadResult where
  status : Nat
  body : UploadBody
  store : List StoredFile
deriving DecidableEq

def noFilePartMsg : List Char := "No file part in the request".toList

def noFileSelectedMsg : List Char := "No file selected".toList

def notAllowedMsg : List Char := "File type not allowed".toList

/-- Preview field of the upload response: the first 500 characters
followed by an ellipsis when the text is longer than 500 characters,
else the whole text. -/
def preview (t : List Char) : List Char :=
  if 500 < t.length then t.take 500 ++ "...".toList else t

/-- The handler upload_pdf of app.py.  The external helpers
secure_filename (werkzeug) and uuid4 are passed in as sec and freshId.
The handler parses the uploaded stream inline with no try/except, so a
parsing failure is an uncaught exception, modelled as Except.error
carrying the exception message; every handled path is Except.ok. -/
def upload_pdf (sec : List Char → List Char) (store : List StoredFile)
    (req : UploadRequest) (freshId : List Char) :
    Except (List Char) UploadResult :=
  if req.hasFilePart = false then
    .ok ⟨400, .err noFilePartMsg, store⟩
  else if req.filename = [] then
    .ok ⟨400, .err noFileSelectedMsg, store⟩
  else if allowed_file req.filename then
    match req.pdf with
    | .fail msg => .error msg
    | .ok pages =>
      let extracted := clean_text (joinPages pages)
      let fn := sec req.filename
      .ok ⟨200, .ok freshId fn extracted.length (preview extracted),
        store ++ [⟨freshId, fn, extracted⟩]⟩
  else
    .ok ⟨400, .err notAllowedMsg, store⟩

/-- Apostrophe character, kept out of string literals. -/
def apos : Char := Char.ofNat 39

/-- Fixed preamble of the user-role prompt built at both completion
call sites of app.py. -/
def promptPre : List Char :=
  "I".toList ++ [apos] ++ "m analyzing a document with the following content:\n\n".toList

/-- Fixed connective of the user-role prompt, placed between the
context excerpt and the question at both call sites. -/
def promptPost : List Char :=
  "...\n\nBased on this document, please answer: ".toList

/-- The prompt_text f-string shared verbatim by query_pdf and
run_cli_mode: preamble, first 4000 characters of the context, fixed
connective, then the question. -/
def buildPrompt (contextText question : List Char) : List Char :=
  promptPre ++ contextText.take 4000 ++ promptPost ++ question

/-- Outcome of the outbound completions POST: success carries the
first choice message content of the response JSON; failure carries
the message of whatever exception the requests call, raise_for_status
or the response-shape access raised. -/
inductive RemoteOutcome where
  | success (content : List Char)
  | failure (msg : List Char)

def errAI : List Char := "Error getting AI response: ".toList

/-- Value bound to ai_response by the try/except around the outbound
call, identical in query_pdf and run_cli_mode. -/
def aiResponse : RemoteOutcome → List Char
  | .success c => c
  | .failure e => errAI ++ e

/-- Incoming JSON query request: presence flags for the body and its
two required fields, plus their values. -/
structure QueryRequest where
  hasJson : Bool
  hasFileId : Bool
  hasPrompt : Bool
  file_id : List Char
  prompt : List Char

/-- JSON body of a query response. -/
inductive QueryBody where
  | err (msg : List Char)
  | ok (file_id prompt response : List Char)
deriving DecidableEq

/-- HTTP status and body of a completed query request, together with
the user-message content of the outbound completion request when one
was made. -/
structure QueryResult where
  status : Nat
  body : QueryBody
  sentUserMessage : Option (List Char)
deriving DecidableEq

def missingFieldsMsg : List Char := "file_id and prompt are required".toList

def invalidFileIdMsg : List Char := "Invalid file_id or no PDF content found".toList

/-- The handler query_pdf of app.py: reject when the body or a field
is missing, reject when the stored text is absent or empty, otherwise
build the prompt, perform the outbound call and answer 200 with the
model answer or the in-band error string. -/
def query_pdf (store : List StoredFile) (req : QueryRequest)
    (remote : RemoteOutcome) : QueryResult :=
  if req.hasJson = false || req.hasFileId = false || req.hasPrompt = false then
    ⟨400, .err missingFieldsMsg, none⟩
  else
    match storeText store req.file_id with
    | none => ⟨400, .err invalidFileIdMsg, none⟩
    | some [] => ⟨400, .err invalidFileIdMsg, none⟩
    | some (c :: t) =>
      ⟨200, .ok req.file_id req.prompt (aiResponse remote),
        some (buildPrompt (c :: t) req.prompt)⟩

def errExtract : List Char := "Error extracting text: ".toList

/-- The function extract_text_from_pdf of app.py: the whole read,
page loop and cleaning run inside a try; any exception is converted
into the error string carrying the exception message. -/
def extract_text_from_pdf : PdfOutcome → List Char
  | .ok pages => clean_text (joinPages pages)
  | .fail msg => errExtract ++ msg

/-- Boolean list version of str.startswith. -/
def startsWithL : List Char → List Char → Bool
  | [], _ => true
  | _ :: _, [] => false
  | p :: ps, c :: cs => p == c && startsWithL ps cs

/-- Space-separated join of the query words, str.join over argv from
index three on. -/
def joinSpace : List (List Char) → List Char
  | [] => []
  | [x] => x
  | x :: xs => x ++ ' ' :: joinSpace xs

def errorWord : List Char := "Error".toList

def usageMsg : List Char := "Usage: python app.py --cli <pdf_path> <query>".toList

def processingMsg (path : List Char) : List Char :=
  "Processing PDF: ".toList ++ path

def gettingMsg : List Char := "\nGetting AI response...".toList

def aiHeaderMsg : List Char := "\nAI Response:".toList

/-- Lines printed to standard output, the exit code passed to
sys.exit when one is reached, and the user-message content of the
outbound completion request when one was made. -/
structure CliOutcome where
  printed : List (List Char)
  exitCode : Option Nat
  sentUserMessage : Option (List Char)
deriving DecidableEq

/-- The function run_cli_mode of app.py: argv dispatch, usage check,
extraction, the branch on whether the extracted string starts with the
word Error, and the completion call with the printed answer. -/
def run_cli_mode (argv : List (List Char)) (pdf : PdfOutcome)
    (remote : RemoteOutcome) : CliOutcome :=
  match argv with
  | _prog :: flag :: argrest =>
    if flag = "--cli".toList then
      match argrest with
      | pdf_path :: q1 :: qs =>
        let query := joinSpace (q1 :: qs)
        let extracted := extract_text_from_pdf pdf
        if startsWithL errorWord extracted then
          ⟨[processingMsg pdf_path, extracted], some 1, none⟩
        else
          ⟨[processingMsg pdf_path, gettingMsg, aiHeaderMsg, aiResponse remote],
            some 0, some (buildPrompt extracted query)⟩
      | _ => ⟨[usageMsg], some 1, none⟩
    else ⟨[], none, none⟩
  | _ => ⟨[], none, none⟩

/-- Scan for two adjacent space characters. -/
def hasDoubleSpace : List Char → Bool
  | c1 :: c2 :: rest => (c1 == ' ' && c2 == ' ') || hasDoubleSpace (c2 :: rest)
  | _ => false

/-- Scan for a hyphen-space pair immediately followed by an ASCII
lowercase letter, the pattern of the fourth cleaning step. -/
def hasDashSpaceLower : List Char → Bool
  | c1 :: rest =>
    (c1 == '-' &&
      (match rest with
        | c2 :: c3 :: _ => c2 == ' ' && isLowerAZ c3
        | _ => false)) || hasDashSpaceLower rest
  | [] => false

/-- Whether a match of the tag pattern starts right after an opening
angle bracket placed in front of the given text: the next character
must not be a closing bracket and a closing bracket must occur later. -/
def tagAt : List Char → Bool
  | [] => false
  | c :: rest => !(c == '>') && rest.contains '>'

/-- Whether some substring of the text matches the tag pattern of the
first cleaning step: an opening bracket, a nonempty middle free of
closing brackets, then a closing bracket. -/
def containsTag : List Char → Bool
  | [] => false
  | c :: rest => (c == '<' && tagAt rest) || containsTag rest

/-! Helper lemmas. -/

/-- Boolean membership agrees with membership. -/
theorem contains_iff_mem (l : List Char) (a : Char) : l.contains a = true ↔ a ∈ l :=
  List.elem_iff

/-- Boolean membership is false on non-members. -/
theorem contains_eq_false (l : List Char) (a : Char) (h : a ∉ l) : l.contains a = false := by
  cases hc : l.contains a with
  | false => rfl
  | true => exact absurd ((contains_iff_mem l a).mp hc) h

/-- Success of scanClose is exactly the presence of a closing
bracket. -/
theorem scanClose_isSome (l : List Char) : (scanClose l).isSome = l.contains '>' := by
  induction l with
  | nil => rfl
  | cons c rest ih =>
    by_cases hc : c = '>'
    · simp [scanClose, hc]
    · simp [scanClose, hc, ih, List.contains_cons]
      exact fun h => absurd h.symm hc

/-- Remainders produced by scanClose are made of input characters. -/
theorem scanClose_mem {l r : List Char} (h : scanClose l = some r) :
    ∀ a, a ∈ r → a ∈ l := by
  induction l generalizing r with
  | nil => simp [scanClose] at h
  | cons c rest ih =>
    by_cases hc : c = '>'
    · simp [scanClose, hc] at h
      intro a ha
      exact List.mem_cons_of_mem c (h ▸ ha)
    · simp [scanClose, hc] at h
      intro a ha
      exact List.mem_cons_of_mem c (ih h a ha)

/-- Remainders produced by scanClose are shorter than the input. -/
theorem scanClose_length {l r : List Char} (h : scanClose l = some r) :
    r.length < l.length := by
  induction l generalizing r with
  | nil => simp [scanClose] at h
  | cons c rest ih =>
    by_cases hc : c = '>'
    · simp [scanClose, hc] at h
      simp [← h]
    · simp [scanClose, hc] at h
      exact Nat.lt_trans (ih h) (Nat.lt_succ_self _)

/-- Success of scanTag is exactly tagAt. -/
theorem scanTag_isSome (l : List Char) : (scanTag l).isSome = tagAt l := by
  cases l with
  | nil => rfl
  | cons c rest =>
    by_cases hc : c = '>'
    · simp [scanTag, tagAt, hc]
    · simp [scanTag, tagAt, hc, scanClose_isSome]

/-- Remainders produced by scanTag are made of input characters. -/
theorem scanTag_mem {l r : List Char} (h : scanTag l = some r) :
    ∀ a, a ∈ r → a ∈ l := by
  cases l with
  | nil => simp [scanTag] at h
  | cons c rest =>
    by_cases hc : c = '>'
    · simp [scanTag, hc] at h
    · simp [scanTag, hc] at h
      intro a ha
      exact List.mem_cons_of_mem c (scanClose_mem h a ha)

/-- Remainders produced by scanTag are shorter than the input. -/
theorem scanTag_length {l r : List Char} (h : scanTag l = some r) :
    r.length < l.length := by
  cases l with
  | nil => simp [scanTag] at h
  | cons c rest =>
    by_cases hc : c = '>'
    · simp [scanTag, hc] at h
    · simp [scanTag, hc] at h
      exact Nat.lt_trans (scanClose_length h) (Nat.lt_succ_self _)

/-- Generic pullback of tagAt along a transformation that never
invents closing brackets and keeps a leading closing bracket in
place. -/
theorem tagAt_pullback (f : List Char → List Char)
    (M : ∀ l, '>' ∈ f l → '>' ∈ l)
    (H : ∀ l, l.head? = some '>' → (f l).head? = some '>') :
    ∀ r, tagAt (f r) = true → tagAt r = true := by
  intro r h
  cases hf : f r with
  | nil => rw [hf] at h; simp [tagAt] at h
  | cons d t =>
    rw [hf] at h
    simp only [tagAt, Bool.and_eq_true, Bool.not_eq_eq_eq_not, Bool.not_true, beq_eq_false_iff_ne,
      ne_eq] at h
    obtain ⟨hd, hgt⟩ := h
    have hmem : '>' ∈ f r := by
      rw [hf]
      exact List.mem_cons_of_mem d ((contains_iff_mem t '>').mp hgt)
    have hr : '>' ∈ r := M r hmem
    cases r with
    | nil => simp at hr
    | cons c tr =>
      by_cases hc : c = '>'
      · have := H (c :: tr) (by rw [hc]; rfl)
        rw [hf] at this
        simp at this
        exact absurd this hd
      · have htr : '>' ∈ tr := by
          cases List.mem_cons.mp hr with
          | inl h0 => exact absurd h0.symm hc
          | inr h0 => exact h0
        simp [tagAt, hc]
        exact htr

/-- Characters other than the inserted space in an output of the tag
stripper come from the input. -/
theorem mem_stripTagsF {c : Char} : ∀ (fuel : Nat) (l : List Char),
    c ∈ stripTagsF fuel l → c = ' ' ∨ c ∈ l := by
  intro fuel
  induction fuel with
  | zero => intro l h; exact Or.inr h
  | succ n ih =>
    intro l h
    cases l with
    | nil => simp [stripTagsF] at h
    | cons a rest =>
      by_cases ha : a = '<'
      · rw [stripTagsF, if_pos ha] at h
        cases hscan : scanTag rest with
        | some rest2 =>
          rw [hscan] at h
          cases List.mem_cons.mp h with
          | inl h0 => exact Or.inl h0
          | inr h0 =>
            cases ih rest2 h0 with
            | inl h1 => exact Or.inl h1
            | inr h1 => exact Or.inr (List.mem_cons_of_mem a (scanTag_mem hscan c h1))
        | none =>
          rw [hscan] at h
          cases List.mem_cons.mp h with
          | inl h0 => exact Or.inr (h0 ▸ List.mem_cons_self a rest)
          | inr h0 =>
            cases ih rest h0 with
            | inl h1 => exact Or.inl h1
            | inr h1 => exact Or.inr (List.mem_cons_of_mem a h1)
      · rw [stripTagsF, if_neg ha] at h
        cases List.mem_cons.mp h with
        | inl h0 => exact Or.inr (h0 ▸ List.mem_cons_self a rest)
        | inr h0 =>
          cases ih rest h0 with
          | inl h1 => exact Or.inl h1
          | inr h1 => exact Or.inr (List.mem_cons_of_mem a h1)

/-- The tag stripper never invents closing brackets. -/
theorem gt_mem_stripTagsF (fuel : Nat) (l : List Char)
    (h : '>' ∈ stripTagsF fuel l) : '>' ∈ l := by
  cases mem_stripTagsF fuel l h with
  | inl h0 => exact absurd h0 (by decide)
  | inr h0 => exact h0

/-- The tag stripper keeps a leading closing bracket in place. -/
theorem head_gt_stripTagsF (fuel : Nat) (l : List Char)
    (h : l.head? = some '>') : (stripTagsF fuel l).head? = some '>' := by
  cases fuel with
  | zero => exact h
  | succ n =>
    cases l with
    | nil => simp at h
    | cons a rest =>
      simp at h
      rw [stripTagsF, if_neg (by rw [h]; decide)]
      simp [h]

/-- Output of the tag stripper, with enough fuel, contains no match of
the tag pattern. -/
theorem containsTag_stripTagsF : ∀ (fuel : Nat) (l : List Char),
    l.length ≤ fuel → containsTag (stripTagsF fuel l) = false := by
  intro fuel
  induction fuel with
  | zero =>
    intro l h
    have : l = [] := List.length_eq_zero.mp (Nat.le_zero.mp h)
    rw [this]
    rfl
  | succ n ih =>
    intro l h
    cases l with
    | nil => rfl
    | cons a rest =>
      have hr : rest.length ≤ n := by
        simp [List.length_cons] at h
        omega
      by_cases ha : a = '<'
      · rw [stripTagsF, if_pos ha]
        cases hscan : scanTag rest with
        | some rest2 =>
          have h2 : rest2.length ≤ n := Nat.le_trans (Nat.le_of_lt (scanTag_length hscan)) hr
          simp [containsTag, ih rest2 h2]
        | none =>
          have htag : tagAt (stripTagsF n rest) = false := by
            cases htag2 : tagAt (stripTagsF n rest) with
            | false => rfl
            | true =>
              have := tagAt_pullback (stripTagsF n) (gt_mem_stripTagsF n)
                (head_gt_stripTagsF n) rest htag2
              rw [← scanTag_isSome, hscan] at this
              simp at this
          simp [containsTag, ih rest hr, htag]
      · rw [stripTagsF, if_neg ha]
        simp [containsTag, ih rest hr, ha]

/-- Output of the first cleaning step contains no match of the tag
pattern. -/
theorem containsTag_stripTags (l : List Char) : containsTag (stripTags l) = false :=
  containsTag_stripTagsF l.length l (Nat.le_refl _)

/-- Unfolding of the newline collapser outside its double-newline
case. -/
theorem collapseNN_cons_excl (c : Char) (rest : List Char)
    (hx : ∀ r, c = '\n' → rest = '\n' :: r → False) :
    collapseNN (c :: rest) = c :: collapseNN rest := by
  rw [collapseNN.eq_def]
  split
  · rename_i heq
    simp only [List.cons.injEq] at heq
    exact (hx _ heq.1 heq.2).elim
  · rename_i heq
    simp only [List.cons.injEq] at heq
    rw [heq.1, heq.2]
  · rename_i heq
    simp at heq

/-- Unfolding of the de-hyphenation step outside its hyphen-space
case. -/
theorem dehyphen_cons_excl (c : Char) (rest : List Char)
    (hx : ∀ (c1 : Char) (r1 : List Char), c = '-' → rest = ' ' :: c1 :: r1 → False) :
    dehyphen (c :: rest) = c :: dehyphen rest := by
  rw [dehyphen.eq_def]
  split
  · rename_i heq
    simp only [List.cons.injEq] at heq
    exact (hx _ _ heq.1 heq.2).elim
  · rename_i heq
    simp only [List.cons.injEq] at heq
    rw [heq.1, heq.2]
  · rename_i heq
    simp at heq

/-- Unfolding of the de-hyphenation step at its hyphen-space case. -/
theorem dehyphen_dash (c : Char) (rest : List Char) :
    dehyphen ('-' :: ' ' :: c :: rest) =
      if isLowerAZ c then dehyphen (c :: rest)
      else '-' :: dehyphen (' ' :: c :: rest) := rfl

/-- Absence of a tag in a nonempty list, split into the contribution
of the head position and of the tail. -/
theorem containsTag_cons_false_iff (c : Char) (rest : List Char) :
    containsTag (c :: rest) = false ↔
      (c = '<' → tagAt rest = false) ∧ containsTag rest = false := by
  by_cases hc : c = '<'
  · simp [containsTag, hc]
  · simp [containsTag, hc]

/-- The newline collapser only drops characters. -/
theorem mem_collapseNN {a : Char} : ∀ l, a ∈ collapseNN l → a ∈ l := by
  intro l
  induction l using collapseNN.induct with
  | case1 rest ih =>
    intro h
    have he : collapseNN ('\n' :: '\n' :: rest) = '\n' :: collapseNN rest := rfl
    rw [he] at h
    cases List.mem_cons.mp h with
    | inl h0 => exact h0 ▸ List.mem_cons_self _ _
    | inr h0 => exact List.mem_cons_of_mem _ (List.mem_cons_of_mem _ (ih h0))
  | case2 c rest hx ih =>
    intro h
    rw [collapseNN_cons_excl c rest hx] at h
    cases List.mem_cons.mp h with
    | inl h0 => exact h0 ▸ List.mem_cons_self _ _
    | inr h0 => exact List.mem_cons_of_mem _ (ih h0)
  | case3 => intro h; exact h

/-- The newline collapser keeps the head in place. -/
theorem head?_collapseNN : ∀ l : List Char, (collapseNN l).head? = l.head? := by
  intro l
  induction l using collapseNN.induct with
  | case1 rest ih => rfl
  | case2 c rest hx ih => rw [collapseNN_cons_excl c rest hx]; rfl
  | case3 => rfl

/-- The newline collapser creates no match of the tag pattern. -/
theorem containsTag_collapseNN : ∀ l, containsTag l = false → containsTag (collapseNN l) = false := by
  have M : ∀ l, '>' ∈ collapseNN l → '>' ∈ l := fun l h => mem_collapseNN l h
  have H : ∀ l : List Char, l.head? = some '>' → (collapseNN l).head? = some '>' :=
    fun l h => by rw [head?_collapseNN]; exact h
  intro l
  induction l using collapseNN.induct with
  | case1 rest ih =>
    intro h
    have h1 : containsTag ('\n' :: rest) = false := ((containsTag_cons_false_iff _ _).mp h).2
    have h2 : containsTag rest = false := ((containsTag_cons_false_iff _ _).mp h1).2
    show containsTag ('\n' :: collapseNN rest) = false
    rw [containsTag_cons_false_iff]
    exact ⟨fun hc => absurd hc (by decide), ih h2⟩
  | case2 c rest hx ih =>
    intro h
    obtain ⟨hct, hrest⟩ := (containsTag_cons_false_iff _ _).mp h
    rw [collapseNN_cons_excl c rest hx, containsTag_cons_false_iff]
    refine ⟨fun hc => ?_, ih hrest⟩
    cases htag : tagAt (collapseNN rest) with
    | false => rfl
    | true =>
      have := tagAt_pullback collapseNN M H rest htag
      rw [hct hc] at this
      exact Bool.noConfusion this
  | case3 => intro h; exact h

/-- Unfolding of the whitespace collapser on a non-whitespace head. -/
theorem collapseWs_cons_not_ws (c : Char) (rest : List Char) (h : isPySpace c = false) :
    collapseWs (c :: rest) = c :: collapseWs rest := by
  simp only [collapseWs, h]
  rfl

/-- Unfolding of the whitespace collapser on a lone whitespace
character. -/
theorem collapseWs_single_ws (c : Char) (h : isPySpace c = true) :
    collapseWs [c] = [' '] := by
  simp only [collapseWs, h]
  rfl

/-- Unfolding of the whitespace collapser on two leading whitespace
characters. -/
theorem collapseWs_ws_ws (c c2 : Char) (rest : List Char)
    (h : isPySpace c = true) (h2 : isPySpace c2 = true) :
    collapseWs (c :: c2 :: rest) = collapseWs (c2 :: rest) := by
  simp only [collapseWs, h, h2]
  rfl

/-- Unfolding of the whitespace collapser at the end of a whitespace
run. -/
theorem collapseWs_ws_not (c c2 : Char) (rest : List Char)
    (h : isPySpace c = true) (h2 : isPySpace c2 = false) :
    collapseWs (c :: c2 :: rest) = ' ' :: collapseWs (c2 :: rest) := by
  simp only [collapseWs, h, h2]
  rfl

/-- Whitespace characters surviving the whitespace collapser are
plain spaces. -/
theorem mem_collapseWs_space {a : Char} :
    ∀ l, a ∈ collapseWs l → isPySpace a = true → a = ' ' := by
  intro l
  induction l using collapseWs.induct with
  | case1 => intro h _; exact absurd h (List.not_mem_nil a)
  | case2 c hc =>
    intro h _
    rw [collapseWs_single_ws c hc] at h
    simpa using h
  | case3 c hc c2 rest hc2 ih =>
    intro h hws
    rw [collapseWs_ws_ws c c2 rest hc hc2] at h
    exact ih h hws
  | case4 c hc c2 rest hc2 ih =>
    intro h hws
    rw [collapseWs_ws_not c c2 rest hc (by simpa using hc2)] at h
    cases List.mem_cons.mp h with
    | inl h0 => exact h0
    | inr h0 => exact ih h0 hws
  | case5 c rest hc ih =>
    intro h hws
    rw [collapseWs_cons_not_ws c rest (by simpa using hc)] at h
    cases List.mem_cons.mp h with
    | inl h0 => rw [h0] at hws; exact absurd hws (by simpa using hc)
    | inr h0 => exact ih h0 hws

/-- Characters of the whitespace collapser output are spaces or input
characters. -/
theorem mem_collapseWs {a : Char} : ∀ l, a ∈ collapseWs l → a = ' ' ∨ a ∈ l := by
  intro l
  induction l using collapseWs.induct with
  | case1 => intro h; exact absurd h (List.not_mem_nil a)
  | case2 c hc =>
    intro h
    rw [collapseWs_single_ws c hc] at h
    left; simpa using h
  | case3 c hc c2 rest hc2 ih =>
    intro h
    rw [collapseWs_ws_ws c c2 rest hc hc2] at h
    cases ih h with
    | inl h0 => exact Or.inl h0
    | inr h0 => exact Or.inr (List.mem_cons_of_mem _ h0)
  | case4 c hc c2 rest hc2 ih =>
    intro h
    rw [collapseWs_ws_not c c2 rest hc (by simpa using hc2)] at h
    cases List.mem_cons.mp h with
    | inl h0 => exact Or.inl h0
    | inr h0 =>
      cases ih h0 with
      | inl h1 => exact Or.inl h1
      | inr h1 => exact Or.inr (List.mem_cons_of_mem _ h1)
  | case5 c rest hc ih =>
    intro h
    rw [collapseWs_cons_not_ws c rest (by simpa using hc)] at h
    cases List.mem_cons.mp h with
    | inl h0 => exact Or.inr (h0 ▸ List.mem_cons_self _ _)
    | inr h0 =>
      cases ih h0 with
      | inl h1 => exact Or.inl h1
      | inr h1 => exact Or.inr (List.mem_cons_of_mem _ h1)

/-- The whitespace collapser keeps a leading closing bracket in
place. -/
theorem head_gt_collapseWs :
    ∀ l : List Char, l.head? = some '>' → (collapseWs l).head? = some '>' := by
  intro l h
  cases l with
  | nil => simp at h
  | cons c rest =>
    simp at h
    rw [h, collapseWs_cons_not_ws '>' rest (by decide)]
    rfl

/-- The whitespace collapser creates no match of the tag pattern. -/
theorem containsTag_collapseWs :
    ∀ l, containsTag l = false → containsTag (collapseWs l) = false := by
  have M : ∀ l, '>' ∈ collapseWs l → '>' ∈ l := by
    intro l h
    cases mem_collapseWs l h with
    | inl h0 => exact absurd h0 (by decide)
    | inr h0 => exact h0
  intro l
  induction l using collapseWs.induct with
  | case1 => intro h; exact h
  | case2 c hc =>
    intro h
    rw [collapseWs_single_ws c hc]
    decide
  | case3 c hc c2 rest hc2 ih =>
    intro h
    rw [collapseWs_ws_ws c c2 rest hc hc2]
    exact ih ((containsTag_cons_false_iff _ _).mp h).2
  | case4 c hc c2 rest hc2 ih =>
    intro h
    rw [collapseWs_ws_not c c2 rest hc (by simpa using hc2), containsTag_cons_false_iff]
    exact ⟨fun hcon => absurd hcon (by decide), ih ((containsTag_cons_false_iff _ _).mp h).2⟩
  | case5 c rest hc ih =>
    intro h
    obtain ⟨hct, hrest⟩ := (containsTag_cons_false_iff _ _).mp h
    rw [collapseWs_cons_not_ws c rest (by simpa using hc), containsTag_cons_false_iff]
    refine ⟨fun hcon => ?_, ih hrest⟩
    cases htag : tagAt (collapseWs rest) with
    | false => rfl
    | true =>
      have := tagAt_pullback collapseWs M head_gt_collapseWs rest htag
      rw [hct hcon] at this
      exact Bool.noConfusion this

/-- The de-hyphenation step only drops characters. -/
theorem mem_dehyphen {a : Char} : ∀ l, a ∈ dehyphen l → a ∈ l := by
  intro l
  induction l using dehyphen.induct with
  | case1 c rest hlow ih =>
    intro h
    rw [dehyphen_dash, if_pos hlow] at h
    exact List.mem_cons_of_mem _ (List.mem_cons_of_mem _ (ih h))
  | case2 c rest hlow ih =>
    intro h
    rw [dehyphen_dash, if_neg hlow] at h
    cases List.mem_cons.mp h with
    | inl h0 => exact h0 ▸ List.mem_cons_self _ _
    | inr h0 => exact List.mem_cons_of_mem _ (ih h0)
  | case3 c rest hx ih =>
    intro h
    rw [dehyphen_cons_excl c rest hx] at h
    cases List.mem_cons.mp h with
    | inl h0 => exact h0 ▸ List.mem_cons_self _ _
    | inr h0 => exact List.mem_cons_of_mem _ (ih h0)
  | case4 => intro h; exact h

/-- The de-hyphenation step keeps a leading closing bracket in
place. -/
theorem head_gt_dehyphen :
    ∀ l : List Char, l.head? = some '>' → (dehyphen l).head? = some '>' := by
  intro l h
  cases l with
  | nil => simp at h
  | cons c rest =>
    simp at h
    rw [h, dehyphen_cons_excl '>' rest (fun _ _ hc _ => absurd hc (by decide))]
    rfl

/-- The de-hyphenation step creates no match of the tag pattern. -/
theorem containsTag_dehyphen :
    ∀ l, containsTag l = false → containsTag (dehyphen l) = false := by
  have M : ∀ l, '>' ∈ dehyphen l → '>' ∈ l := fun l h => mem_dehyphen l h
  intro l
  induction l using dehyphen.induct with
  | case1 c rest hlow ih =>
    intro h
    rw [dehyphen_dash, if_pos hlow]
    have h1 : containsTag (' ' :: c :: rest) = false :=
      ((containsTag_cons_false_iff _ _).mp h).2
    have h2 : containsTag (c :: rest) = false :=
      ((containsTag_cons_false_iff _ _).mp h1).2
    exact ih h2
  | case2 c rest hlow ih =>
    intro h
    rw [dehyphen_dash, if_neg hlow, containsTag_cons_false_iff]
    have h1 : containsTag (' ' :: c :: rest) = false :=
      ((containsTag_cons_false_iff _ _).mp h).2
    exact ⟨fun hc => absurd hc (by decide), ih h1⟩
  | case3 c rest hx ih =>
    intro h
    obtain ⟨hct, hrest⟩ := (containsTag_cons_false_iff _ _).mp h
    rw [dehyphen_cons_excl c rest hx, containsTag_cons_false_iff]
    refine ⟨fun hc => ?_, ih hrest⟩
    cases htag : tagAt (dehyphen rest) with
    | false => rfl
    | true =>
      have := tagAt_pullback dehyphen M head_gt_dehyphen rest htag
      rw [hct hc] at this
      exact Bool.noConfusion this
  | case4 => intro h; exact h

/-- Unfolding of the bullet replacement step. -/
theorem bulletStep_cons (c : Char) (rest : List Char) :
    bulletStep (c :: rest) =
      if c = bulletChar then bulletRepl ++ bulletStep rest
      else c :: bulletStep rest := rfl

/-- Characters of the bullet step output come from the replacement
sequence or from the input. -/
theorem mem_bulletStep {a : Char} : ∀ l, a ∈ bulletStep l → a ∈ bulletRepl ∨ a ∈ l := by
  intro l
  induction l with
  | nil => intro h; exact absurd h (List.not_mem_nil a)
  | cons c rest ih =>
    intro h
    rw [bulletStep_cons] at h
    by_cases hb : c = bulletChar
    · rw [if_pos hb] at h
      cases List.mem_append.mp h with
      | inl h0 => exact Or.inl h0
      | inr h0 =>
        cases ih h0 with
        | inl h1 => exact Or.inl h1
        | inr h1 => exact Or.inr (List.mem_cons_of_mem _ h1)
    · rw [if_neg hb] at h
      cases List.mem_cons.mp h with
      | inl h0 => exact Or.inr (h0 ▸ List.mem_cons_self _ _)
      | inr h0 =>
        cases ih h0 with
        | inl h1 => exact Or.inl h1
        | inr h1 => exact Or.inr (List.mem_cons_of_mem _ h1)

/-- The bullet step removes every bullet character. -/
theorem bullet_not_mem_bulletStep : ∀ l, bulletChar ∉ bulletStep l := by
  intro l
  induction l with
  | nil => exact List.not_mem_nil _
  | cons c rest ih =>
    rw [bulletStep_cons]
    by_cases hb : c = bulletChar
    · rw [if_pos hb]
      intro h
      cases List.mem_append.mp h with
      | inl h0 => exact absurd h0 (by decide)
      | inr h0 => exact ih h0
    · rw [if_neg hb]
      intro h
      cases List.mem_cons.mp h with
      | inl h0 => exact hb h0.symm
      | inr h0 => exact ih h0

/-- The bullet step keeps a leading closing bracket in place. -/
theorem head_gt_bulletStep :
    ∀ l : List Char, l.head? = some '>' → (bulletStep l).head? = some '>' := by
  intro l h
  cases l with
  | nil => simp at h
  | cons c rest =>
    simp at h
    rw [h, bulletStep_cons, if_neg (by decide)]
    rfl

/-- Prepending characters other than an opening bracket does not
affect the presence of a tag. -/
theorem containsTag_append_no_lt :
    ∀ pre X : List Char, (∀ a ∈ pre, a ≠ '<') → containsTag (pre ++ X) = containsTag X := by
  intro pre
  induction pre with
  | nil => intro X _; rfl
  | cons p rest ih =>
    intro X h
    have hp : p ≠ '<' := h p (List.mem_cons_self _ _)
    show containsTag (p :: (rest ++ X)) = containsTag X
    have : containsTag (p :: (rest ++ X)) =
        ((p == '<' && tagAt (rest ++ X)) || containsTag (rest ++ X)) := rfl
    rw [this, ih X (fun a ha => h a (List.mem_cons_of_mem _ ha))]
    simp [hp]

/-- The bullet step creates no match of the tag pattern. -/
theorem containsTag_bulletStep :
    ∀ l, containsTag l = false → containsTag (bulletStep l) = false := by
  have M : ∀ l, '>' ∈ bulletStep l → '>' ∈ l := by
    intro l h
    cases mem_bulletStep l h with
    | inl h0 => exact absurd h0 (by decide)
    | inr h0 => exact h0
  intro l
  induction l with
  | nil => intro h; exact h
  | cons c rest ih =>
    intro h
    obtain ⟨hct, hrest⟩ := (containsTag_cons_false_iff _ _).mp h
    rw [bulletStep_cons]
    by_cases hb : c = bulletChar
    · rw [if_pos hb, containsTag_append_no_lt bulletRepl _ (by decide)]
      exact ih hrest
    · rw [if_neg hb, containsTag_cons_false_iff]
      refine ⟨fun hc => ?_, ih hrest⟩
      cases htag : tagAt (bulletStep rest) with
      | false => rfl
      | true =>
        have := tagAt_pullback bulletStep M head_gt_bulletStep rest htag
        rw [hct hc] at this
        exact Bool.noConfusion this

/-- Unfolding of the non-breaking-space step. -/
theorem nbspStep_cons (c : Char) (rest : List Char) :
    nbspStep (c :: rest) = (if c = nbspChar then ' ' else c) :: nbspStep rest := rfl

/-- Characters of the non-breaking-space step output are spaces or
input characters. -/
theorem mem_nbspStep {a : Char} : ∀ l, a ∈ nbspStep l → a = ' ' ∨ a ∈ l := by
  intro l
  induction l with
  | nil => intro h; exact absurd h (List.not_mem_nil a)
  | cons c rest ih =>
    intro h
    rw [nbspStep_cons] at h
    cases List.mem_cons.mp h with
    | inl h0 =>
      by_cases hb : c = nbspChar
      · rw [if_pos hb] at h0; exact Or.inl h0
      · rw [if_neg hb] at h0; exact Or.inr (h0 ▸ List.mem_cons_self _ _)
    | inr h0 =>
      cases ih h0 with
      | inl h1 => exact Or.inl h1
      | inr h1 => exact Or.inr (List.mem_cons_of_mem _ h1)

/-- The non-breaking-space step removes every non-breaking space. -/
theorem nbsp_not_mem_nbspStep : ∀ l, nbspChar ∉ nbspStep l := by
  intro l
  induction l with
  | nil => exact List.not_mem_nil _
  | cons c rest ih =>
    rw [nbspStep_cons]
    intro h
    cases List.mem_cons.mp h with
    | inl h0 =>
      by_cases hb : c = nbspChar
      · rw [if_pos hb] at h0; exact absurd h0 (by decide)
      · rw [if_neg hb] at h0; exact hb h0.symm
    | inr h0 => exact ih h0

/-- The non-breaking-space step keeps a leading closing bracket in
place. -/
theorem head_gt_nbspStep :
    ∀ l : List Char, l.head? = some '>' → (nbspStep l).head? = some '>' := by
  intro l h
  cases l with
  | nil => simp at h
  | cons c rest =>
    simp at h
    rw [h, nbspStep_cons, if_neg (by decide)]
    rfl

/-- The non-breaking-space step creates no match of the tag
pattern. -/
theorem containsTag_nbspStep :
    ∀ l, containsTag l = false → containsTag (nbspStep l) = false := by
  have M : ∀ l, '>' ∈ nbspStep l → '>' ∈ l := by
    intro l h
    cases mem_nbspStep l h with
    | inl h0 => exact absurd h0 (by decide)
    | inr h0 => exact h0
  intro l
  induction l with
  | nil => intro h; exact h
  | cons c rest ih =>
    intro h
    obtain ⟨hct, hrest⟩ := (containsTag_cons_false_iff _ _).mp h
    rw [nbspStep_cons, containsTag_cons_false_iff]
    refine ⟨fun hc => ?_, ih hrest⟩
    by_cases hb : c = nbspChar
    · rw [if_pos hb] at hc; exact absurd hc (by decide)
    · rw [if_neg hb] at hc
      cases htag : tagAt (nbspStep rest) with
      | false => rfl
      | true =>
        have := tagAt_pullback nbspStep M head_gt_nbspStep rest htag
        rw [hct hc] at this
        exact Bool.noConfusion this

/-- A tag at the front survives appending on the right. -/
theorem tagAt_append {m : List Char} (b : List Char) (h : tagAt m = true) :
    tagAt (m ++ b) = true := by
  cases m with
  | nil => simp [tagAt] at h
  | cons d t =>
    simp only [tagAt, Bool.and_eq_true, Bool.not_eq_eq_eq_not, Bool.not_true,
      beq_eq_false_iff_ne, ne_eq] at h
    obtain ⟨hd, hgt⟩ := h
    show tagAt (d :: (t ++ b)) = true
    simp only [tagAt, Bool.and_eq_true, Bool.not_eq_eq_eq_not, Bool.not_true,
      beq_eq_false_iff_ne, ne_eq]
    exact ⟨hd, (contains_iff_mem _ '>').mpr
      (List.mem_append_left b ((contains_iff_mem t '>').mp hgt))⟩

/-- A tag survives appending on the right. -/
theorem containsTag_append_left {m : List Char} (b : List Char)
    (h : containsTag m = true) : containsTag (m ++ b) = true := by
  induction m with
  | nil => simp [containsTag] at h
  | cons c t ih =>
    have hc : containsTag (c :: t) = ((c == '<' && tagAt t) || containsTag t) := rfl
    rw [hc] at h
    show containsTag (c :: (t ++ b)) = true
    have hc2 : containsTag (c :: (t ++ b)) =
        ((c == '<' && tagAt (t ++ b)) || containsTag (t ++ b)) := rfl
    rw [hc2]
    rw [Bool.or_eq_true] at h
    cases h with
    | inl h0 =>
      rw [Bool.and_eq_true] at h0
      simp [h0.1, tagAt_append b h0.2]
    | inr h0 => simp [ih h0]

/-- A tag survives prepending on the left. -/
theorem containsTag_cons_of_true (c : Char) {X : List Char}
    (h : containsTag X = true) : containsTag (c :: X) = true := by
  have hc : containsTag (c :: X) = ((c == '<' && tagAt X) || containsTag X) := rfl
  rw [hc, h]
  simp

/-- A tag survives prepending a whole segment on the left. -/
theorem containsTag_append_right_of (a : List Char) {X : List Char}
    (h : containsTag X = true) : containsTag (a ++ X) = true := by
  induction a with
  | nil => exact h
  | cons x a2 ih => exact containsTag_cons_of_true x ih

/-- Tag-freeness passes to every infix. -/
theorem containsTag_infix {a m b : List Char}
    (h : containsTag (a ++ (m ++ b)) = false) : containsTag m = false := by
  cases hm : containsTag m with
  | false => rfl
  | true =>
    have hfull : containsTag (a ++ (m ++ b)) = true :=
      containsTag_append_right_of a (containsTag_append_left b hm)
    rw [hfull] at h
    exact Bool.noConfusion h

/-- The trailing strip returns a leading segment of its input. -/
theorem stripEnd_prefix_decomp (m : List Char) : ∃ t, m = stripEnd m ++ t := by
  obtain ⟨t, ht⟩ := List.dropWhile_suffix (l := m.reverse) isPySpace
  refine ⟨t.reverse, ?_⟩
  have h2 := congrArg List.reverse ht
  rw [List.reverse_append, List.reverse_reverse] at h2
  exact h2.symm

/-- The strip step returns an infix of its input. -/
theorem pyStrip_infix_decomp (l : List Char) : ∃ a b, l = a ++ (pyStrip l ++ b) := by
  obtain ⟨a, ha⟩ := List.dropWhile_suffix (l := l) isPySpace
  obtain ⟨b, hb⟩ := stripEnd_prefix_decomp (l.dropWhile isPySpace)
  refine ⟨a, b, ?_⟩
  have hp : pyStrip l = stripEnd (l.dropWhile isPySpace) := rfl
  rw [hp, ← hb, ha]

/-- The strip step only drops characters. -/
theorem mem_pyStrip {a : Char} (l : List Char) (h : a ∈ pyStrip l) : a ∈ l := by
  obtain ⟨x, y, hd⟩ := pyStrip_infix_decomp l
  rw [hd]
  exact List.mem_append.mpr (Or.inr (List.mem_append.mpr (Or.inl h)))

/-- The strip step creates no match of the tag pattern. -/
theorem containsTag_pyStrip (l : List Char) (h : containsTag l = false) :
    containsTag (pyStrip l) = false := by
  obtain ⟨x, y, hd⟩ := pyStrip_infix_decomp l
  rw [hd] at h
  exact containsTag_infix h

/-- Output of the whole cleaning pipeline contains no match of the
tag pattern. -/
theorem containsTag_clean_text (x : List Char) : containsTag (clean_text x) = false :=
  containsTag_pyStrip _ (containsTag_nbspStep _ (containsTag_bulletStep _
    (containsTag_dehyphen _ (containsTag_collapseWs _ (containsTag_collapseNN _
      (containsTag_stripTags x))))))

/-- Whitespace characters surviving the whole cleaning pipeline are
plain spaces. -/
theorem wsSpace_clean_text (x : List Char) :
    ∀ a, a ∈ clean_text x → isPySpace a = true → a = ' ' := by
  intro a hmem hws
  have h1 : a ∈ nbspStep (bulletStep (dehyphen (collapseWs (collapseNN (stripTags x))))) :=
    mem_pyStrip _ hmem
  cases mem_nbspStep _ h1 with
  | inl h => exact h
  | inr h2 =>
    cases mem_bulletStep _ h2 with
    | inl h =>
      have hb : ∀ b ∈ bulletRepl, isPySpace b = true → b = ' ' := by decide
      exact hb a h hws
    | inr h3 => exact mem_collapseWs_space _ (mem_dehyphen _ h3) hws

/-- The cleaned text contains no non-breaking space. -/
theorem nbsp_not_mem_clean_text (x : List Char) : nbspChar ∉ clean_text x := by
  intro h
  have := wsSpace_clean_text x nbspChar h (by decide)
  exact absurd this (by decide)

/-- The cleaned text contains no newline. -/
theorem nl_not_mem_clean_text (x : List Char) : '\n' ∉ clean_text x := by
  intro h
  have := wsSpace_clean_text x '\n' h (by decide)
  exact absurd this (by decide)

/-- The cleaned text contains no bullet character. -/
theorem bullet_not_mem_clean_text (x : List Char) : bulletChar ∉ clean_text x := by
  intro h
  have h1 := mem_pyStrip _ h
  cases mem_nbspStep _ h1 with
  | inl h0 => exact absurd h0 (by decide)
  | inr h2 => exact bullet_not_mem_bulletStep _ h2

/-- The tag stripper is the identity on tag-free text. -/
theorem stripTagsF_noop : ∀ (fuel : Nat) (l : List Char),
    containsTag l = false → stripTagsF fuel l = l := by
  intro fuel
  induction fuel with
  | zero => intro l _; rfl
  | succ n ih =>
    intro l h
    cases l with
    | nil => rfl
    | cons c rest =>
      obtain ⟨hct, hrest⟩ := (containsTag_cons_false_iff _ _).mp h
      by_cases hc : c = '<'
      · rw [stripTagsF, if_pos hc]
        cases hscan : scanTag rest with
        | some r =>
          exfalso
          have h2 := scanTag_isSome rest
          rw [hscan, hct hc] at h2
          simp at h2
        | none => rw [ih rest hrest]
      · rw [stripTagsF, if_neg hc, ih rest hrest]

/-- The first cleaning step is the identity on tag-free text. -/
theorem stripTags_noop (l : List Char) (h : containsTag l = false) : stripTags l = l :=
  stripTagsF_noop _ _ h

/-- The newline collapser is the identity on newline-free text. -/
theorem collapseNN_noop : ∀ l, '\n' ∉ l → collapseNN l = l := by
  intro l
  induction l using collapseNN.induct with
  | case1 rest ih => intro h; exact absurd (List.mem_cons_self _ _) h
  | case2 c rest hx ih =>
    intro h
    rw [collapseNN_cons_excl c rest hx, ih (fun hm => h (List.mem_cons_of_mem _ hm))]
  | case3 => intro _; rfl

/-- Unfolding of the double-space scanner. -/
theorem hasDoubleSpace_cons2 (c1 c2 : Char) (rest : List Char) :
    hasDoubleSpace (c1 :: c2 :: rest) =
      ((c1 == ' ' && c2 == ' ') || hasDoubleSpace (c2 :: rest)) := rfl

/-- The double-space scanner ignores a dropped head. -/
theorem hasDoubleSpace_tail (c : Char) (rest : List Char)
    (h : hasDoubleSpace (c :: rest) = false) : hasDoubleSpace rest = false := by
  cases rest with
  | nil => rfl
  | cons c2 r2 =>
    rw [hasDoubleSpace_cons2] at h
    exact (Bool.or_eq_false_iff.mp h).2

/-- The whitespace collapser is the identity on text whose whitespace
is made of isolated plain spaces. -/
theorem collapseWs_noop : ∀ l, (∀ a ∈ l, isPySpace a = true → a = ' ') →
    hasDoubleSpace l = false → collapseWs l = l := by
  intro l
  induction l using collapseWs.induct with
  | case1 => intro _ _; rfl
  | case2 c hc =>
    intro hws _
    rw [collapseWs_single_ws c hc, hws c (List.mem_cons_self _ _) hc]
  | case3 c hc c2 rest hc2 ih =>
    intro hws hds
    exfalso
    have h1 : c = ' ' := hws c (List.mem_cons_self _ _) hc
    have h2 : c2 = ' ' := hws c2 (List.mem_cons_of_mem _ (List.mem_cons_self _ _)) hc2
    rw [hasDoubleSpace_cons2, h1, h2] at hds
    simp at hds
  | case4 c hc c2 rest hc2 ih =>
    intro hws hds
    rw [collapseWs_ws_not c c2 rest hc (by simpa using hc2)]
    have h1 : c = ' ' := hws c (List.mem_cons_self _ _) hc
    rw [ih (fun a ha hw => hws a (List.mem_cons_of_mem _ ha) hw)
      (hasDoubleSpace_tail _ _ hds), h1]
  | case5 c rest hc ih =>
    intro hws hds
    rw [collapseWs_cons_not_ws c rest (by simpa using hc),
      ih (fun a ha hw => hws a (List.mem_cons_of_mem _ ha) hw)
        (hasDoubleSpace_tail _ _ hds)]

/-- Unfolding of the hyphen-space-lowercase scanner. -/
theorem hasDashSpaceLower_cons (c1 : Char) (rest : List Char) :
    hasDashSpaceLower (c1 :: rest) =
      ((c1 == '-' &&
        (match rest with
          | c2 :: c3 :: _ => c2 == ' ' && isLowerAZ c3
          | _ => false)) || hasDashSpaceLower rest) := rfl

/-- The hyphen-space-lowercase scanner ignores a dropped head. -/
theorem hasDashSpaceLower_tail (c : Char) (rest : List Char)
    (h : hasDashSpaceLower (c :: rest) = false) : hasDashSpaceLower rest = false := by
  rw [hasDashSpaceLower_cons] at h
  exact (Bool.or_eq_false_iff.mp h).2

/-- The de-hyphenation step is the identity on text with no
hyphen-space-lowercase occurrence. -/
theorem dehyphen_noop : ∀ l, hasDashSpaceLower l = false → dehyphen l = l := by
  intro l
  induction l using dehyphen.induct with
  | case1 c rest hlow ih =>
    intro h
    exfalso
    rw [hasDashSpaceLower_cons] at h
    simp [hlow] at h
  | case2 c rest hlow ih =>
    intro h
    rw [dehyphen_dash, if_neg hlow, ih (hasDashSpaceLower_tail _ _ h)]
  | case3 c rest hx ih =>
    intro h
    rw [dehyphen_cons_excl c rest hx, ih (hasDashSpaceLower_tail _ _ h)]
  | case4 => intro _; rfl

/-- The bullet step is the identity on bullet-free text. -/
theorem bulletStep_noop : ∀ l, bulletChar ∉ l → bulletStep l = l := by
  intro l
  induction l with
  | nil => intro _; rfl
  | cons c rest ih =>
    intro h
    by_cases hb : c = bulletChar
    · exact absurd (by rw [← hb]; exact List.mem_cons_self _ _) h
    · rw [bulletStep_cons, if_neg hb, ih (fun hm => h (List.mem_cons_of_mem _ hm))]

/-- The non-breaking-space step is the identity when no non-breaking
space occurs. -/
theorem nbspStep_noop : ∀ l, nbspChar ∉ l → nbspStep l = l := by
  intro l
  induction l with
  | nil => intro _; rfl
  | cons c rest ih =>
    intro h
    have hb : ¬c = nbspChar := fun hc => h (by rw [← hc]; exact List.mem_cons_self _ _)
    rw [nbspStep_cons, if_neg hb, ih (fun hm => h (List.mem_cons_of_mem _ hm))]

/-- The head surviving a leading whitespace drop is never
whitespace. -/
theorem head?_dropWhile_ws (l : List Char) :
    ∀ c, (l.dropWhile isPySpace).head? = some c → isPySpace c = false := by
  induction l with
  | nil => intro c h; simp [List.dropWhile] at h
  | cons a t ih =>
    intro c h
    by_cases ha : isPySpace a = true
    · rw [List.dropWhile_cons, if_pos ha] at h
      exact ih c h
    · rw [List.dropWhile_cons, if_neg ha] at h
      simp at h
      rw [← h]
      simpa using ha

/-- A list whose head is not whitespace is unchanged by a leading
whitespace drop. -/
theorem dropWhile_eq_self_of_head (l : List Char)
    (h : ∀ c, l.head? = some c → isPySpace c = false) :
    l.dropWhile isPySpace = l := by
  cases l with
  | nil => rfl
  | cons a t =>
    rw [List.dropWhile_cons, if_neg (by simp [h a rfl])]

/-- A nonempty leading segment fixes the head of the whole list. -/
theorem head?_of_prefix_decomp {r t A : List Char} (h : r ++ t = A) (hne : r ≠ []) :
    A.head? = r.head? := by
  cases r with
  | nil => exact absurd rfl hne
  | cons x xs => rw [← h]; rfl

/-- The strip step is idempotent. -/
theorem pyStrip_idem (l : List Char) : pyStrip (pyStrip l) = pyStrip l := by
  have key : ∀ m : List Char, (stripEnd (m.dropWhile isPySpace)).dropWhile isPySpace
      = stripEnd (m.dropWhile isPySpace) := by
    intro m
    apply dropWhile_eq_self_of_head
    intro c hc
    obtain ⟨t, ht⟩ := stripEnd_prefix_decomp (m.dropWhile isPySpace)
    have hne : stripEnd (m.dropWhile isPySpace) ≠ [] := by
      intro h0; rw [h0] at hc; simp at hc
    have hh : (m.dropWhile isPySpace).head? = (stripEnd (m.dropWhile isPySpace)).head? :=
      head?_of_prefix_decomp ht.symm hne
    exact head?_dropWhile_ws m c (by rw [hh, hc])
  show stripEnd ((stripEnd (l.dropWhile isPySpace)).dropWhile isPySpace) =
    stripEnd (l.dropWhile isPySpace)
  rw [key l]
  show ((((l.dropWhile isPySpace).reverse.dropWhile isPySpace).reverse).reverse.dropWhile
    isPySpace).reverse = _
  rw [List.reverse_reverse, List.dropWhile_idempotent]
  rfl

/-- Taking an initial segment yields a prefix in the sense of
startsWithL. -/
theorem startsWithL_take (l : List Char) : ∀ n : Nat, startsWithL (l.take n) l = true := by
  induction l with
  | nil => intro n; simp [List.take_nil, startsWithL]
  | cons c cs ih =>
    intro n
    cases n with
    | zero => simp [startsWithL]
    | succ m => simpa [startsWithL] using ih m

/-! Claim theorems. -/

/-- C5: for the document whose two pages extract to the page texts
A-hyphen-newline-foo and bar, the per-page concatenation with a
newline appended after each page yields the raw string consisting of
those texts each followed by a newline, and cleaning that raw string
yields exactly the eight characters Afoo-space-bar. -/
theorem claim_C5 :
    joinPages ["A-\nfoo".toList, "bar".toList] = "A-\nfoo\nbar\n".toList ∧
    clean_text "A-\nfoo\nbar\n".toList = "Afoo bar".toList := by
  exact ⟨rfl, by decide⟩

/-- C1 counterexample: at the HTTP upload call site a parsing failure
is not caught; on a request whose file stream fails to parse the
handler propagates the exception instead of producing an error
value. -/
theorem claim_C1_counterexample :
    upload_pdf id [] ⟨true, "a.pdf".toList, .fail "bad".toList⟩ "u1".toList =
      .error "bad".toList := by
  rfl

/-- C1 amended: failures are caught and converted into the descriptive
error value carrying the underlying message only inside the Document
Extractor used by the CLI path; the HTTP upload path parses the stream
inline without a handler, and a failure there propagates out of the
handler as an uncaught exception. -/
theorem claim_C1_amended (msg : List Char) (sec : List Char → List Char)
    (store : List StoredFile) (fn fid : List Char)
    (hfn : fn ≠ []) (hok : allowed_file fn = true) :
    extract_text_from_pdf (.fail msg) = errExtract ++ msg ∧
    upload_pdf sec store ⟨true, fn, .fail msg⟩ fid = .error msg := by
  refine ⟨rfl, ?_⟩
  simp [upload_pdf, hfn, hok]

/-- C1 witness: the amended statement at a concrete failing stream. -/
theorem claim_C1_witness :
    extract_text_from_pdf (.fail "bad".toList) = errExtract ++ "bad".toList ∧
    upload_pdf id [] ⟨true, "a.pdf".toList, .fail "bad".toList⟩ "u1".toList =
      .error "bad".toList :=
  claim_C1_amended "bad".toList id [] "a.pdf".toList "u1".toList
    (by decide) (by decide)

/-- C2 counterexample: the Text Cleaner is not idempotent; on the
input hyphen-space-hyphen-space-a a second application of the cleaner
changes the result again. -/
theorem claim_C2_counterexample :
    clean_text (clean_text "- - a".toList) ≠ clean_text "- - a".toList := by
  decide

/-- C2 amended: the Text Cleaner is idempotent on every input whose
cleaned form contains no pair of adjacent spaces and no hyphen-space
pair followed by an ASCII lowercase letter. -/
theorem claim_C2_amended (x : List Char)
    (h1 : hasDoubleSpace (clean_text x) = false)
    (h2 : hasDashSpaceLower (clean_text x) = false) :
    clean_text (clean_text x) = clean_text x := by
  show pyStrip (nbspStep (bulletStep (dehyphen (collapseWs (collapseNN
    (stripTags (clean_text x))))))) = clean_text x
  rw [stripTags_noop _ (containsTag_clean_text x),
    collapseNN_noop _ (nl_not_mem_clean_text x),
    collapseWs_noop _ (fun a ha => wsSpace_clean_text x a ha) h1,
    dehyphen_noop _ h2,
    bulletStep_noop _ (bullet_not_mem_clean_text x),
    nbspStep_noop _ (nbsp_not_mem_clean_text x)]
  exact pyStrip_idem (nbspStep (bulletStep (dehyphen (collapseWs (collapseNN
    (stripTags x))))))

/-- C2 witness: the amended statement at a concrete input whose
cleaned form satisfies both side conditions. -/
theorem claim_C2_witness :
    hasDoubleSpace (clean_text "hello world".toList) = false ∧
    hasDashSpaceLower (clean_text "hello world".toList) = false ∧
    clean_text (clean_text "hello world".toList) = clean_text "hello world".toList :=
  ⟨by decide, by decide, claim_C2_amended "hello world".toList (by decide) (by decide)⟩

/-- C4: for every input, the output of the Text Cleaner contains no
non-breaking space character and no substring matching the tag
pattern of an opening bracket, a nonempty middle without closing
brackets, and a closing bracket. -/
theorem claim_C4 (x : List Char) :
    containsTag (clean_text x) = false ∧ (clean_text x).contains nbspChar = false :=
  ⟨containsTag_clean_text x, contains_eq_false _ _ (nbsp_not_mem_clean_text x)⟩

/-- C3 counterexample: a document whose pages parse successfully but
whose cleaned text happens to start with the word Error makes the CLI
print that text and exit with status one, even though extraction
succeeded, the completion client is never run and no answer is
printed. -/
theorem claim_C3_counterexample :
    run_cli_mode ["app.py".toList, "--cli".toList, "doc.pdf".toList, "what".toList]
      (.ok ["Error code 5".toList]) (.success "fine".toList) =
      ⟨["Processing PDF: doc.pdf".toList, "Error code 5".toList], some 1, none⟩ := by
  decide

/-- C3 amended: the CLI treats the extracted string as a failure
exactly when it starts with the word Error, which is the case for
every extractor failure; it then prints the string and exits with
status one, and otherwise performs the completion call, prints the
resulting answer or error text, and exits with status zero. -/
theorem claim_C3_amended (prog path q1 : List Char) (qs : List (List Char))
    (pdf : PdfOutcome) (remote : RemoteOutcome) :
    (∀ msg, startsWithL errorWord (extract_text_from_pdf (.fail msg)) = true) ∧
    (startsWithL errorWord (extract_text_from_pdf pdf) = true →
      run_cli_mode (prog :: "--cli".toList :: path :: q1 :: qs) pdf remote =
        ⟨[processingMsg path, extract_text_from_pdf pdf], some 1, none⟩) ∧
    (startsWithL errorWord (extract_text_from_pdf pdf) = false →
      run_cli_mode (prog :: "--cli".toList :: path :: q1 :: qs) pdf remote =
        ⟨[processingMsg path, gettingMsg, aiHeaderMsg, aiResponse remote], some 0,
          some (buildPrompt (extract_text_from_pdf pdf) (joinSpace (q1 :: qs)))⟩) := by
  refine ⟨fun msg => rfl, fun h => ?_, fun h => ?_⟩
  · simp [run_cli_mode, h]
  · simp [run_cli_mode, h]

/-- C3 witness: the amended statement at concrete arguments, with the
failure branch exercised on a failing parse. -/
theorem claim_C3_witness :
    run_cli_mode ["app.py".toList, "--cli".toList, "d.pdf".toList, "why".toList]
      (.fail "broken".toList) (.success "fine".toList) =
      ⟨["Processing PDF: d.pdf".toList,
        extract_text_from_pdf (.fail "broken".toList)], some 1, none⟩ :=
  (claim_C3_amended "app.py".toList "d.pdf".toList "why".toList []
    (.fail "broken".toList) (.success "fine".toList)).2.1 (by decide)

/-- C6: at both completion call sites the outbound user message embeds
at most the first 4000 characters of the context text: when the
context is longer than 4000 characters the embedded excerpt is its
4000-character initial segment, of length exactly 4000. -/
theorem claim_C6 (store : List StoredFile) (fid q : List Char)
    (remote : RemoteOutcome) (ctx : List Char)
    (h : 4000 < ctx.length) (hstore : storeText store fid = some ctx) :
    (query_pdf store ⟨true, true, true, fid, q⟩ remote).sentUserMessage =
      some (promptPre ++ ctx.take 4000 ++ promptPost ++ q) ∧
    (∀ prog path qs pdf remote2, extract_text_from_pdf pdf = ctx →
      startsWithL errorWord ctx = false →
      (run_cli_mode (prog :: "--cli".toList :: path :: q :: qs) pdf remote2).sentUserMessage =
        some (promptPre ++ ctx.take 4000 ++ promptPost ++ joinSpace (q :: qs))) ∧
    (ctx.take 4000).length = 4000 ∧
    startsWithL (ctx.take 4000) ctx = true := by
  have hne : ctx ≠ [] := by
    intro hc; rw [hc] at h; simp at h
  refine ⟨?_, ?_, ?_, startsWithL_take ctx 4000⟩
  · cases ctx with
    | nil => exact absurd rfl hne
    | cons c t => simp [query_pdf, hstore, buildPrompt]
  · intro prog path qs pdf remote2 hext hnoerr
    simp [run_cli_mode, hext, hnoerr, buildPrompt]
  · rw [List.length_take]
    omega

/-- C6 witness: a stored context of 4001 characters is embedded as its
4000-character initial segment at the query call site. -/
theorem claim_C6_witness :
    4000 < (List.replicate 4001 'a').length ∧
    ((query_pdf [⟨"i1".toList, "f.pdf".toList, List.replicate 4001 'a'⟩]
        ⟨true, true, true, "i1".toList, "q".toList⟩
        (.success "ans".toList)).sentUserMessage =
      some (promptPre ++ (List.replicate 4001 'a').take 4000 ++ promptPost ++ "q".toList) ∧
    (∀ prog path qs pdf remote2,
      extract_text_from_pdf pdf = List.replicate 4001 'a' →
      startsWithL errorWord (List.replicate 4001 'a') = false →
      (run_cli_mode (prog :: "--cli".toList :: path :: "q".toList :: qs) pdf
          remote2).sentUserMessage =
        some (promptPre ++ (List.replicate 4001 'a').take 4000 ++ promptPost ++
          joinSpace ("q".toList :: qs))) ∧
    ((List.replicate 4001 'a').take 4000).length = 4000 ∧
    startsWithL ((List.replicate 4001 'a').take 4000) (List.replicate 4001 'a') = true) :=
  ⟨by rw [List.length_replicate]; omega,
    claim_C6 [⟨"i1".toList, "f.pdf".toList, List.replicate 4001 'a'⟩]
    "i1".toList "q".toList (.success "ans".toList) (List.replicate 4001 'a')
    (by rw [List.length_replicate]; omega) rfl⟩

/-- C7: every successful upload returns a preview equal to the first
500 characters of the cleaned text followed by the ellipsis marker
when the cleaned text is longer than 500 characters, and equal to the
whole cleaned text with nothing appended otherwise. -/
theorem claim_C7 (sec : List Char → List Char) (store : List StoredFile)
    (fn fid : List Char) (pages : List (List Char))
    (hfn : fn ≠ []) (hok : allowed_file fn = true) :
    ∃ pv st,
      upload_pdf sec store ⟨true, fn, .ok pages⟩ fid =
        .ok ⟨200, .ok fid (sec fn) (clean_text (joinPages pages)).length pv, st⟩ ∧
      (500 < (clean_text (joinPages pages)).length →
        pv = (clean_text (joinPages pages)).take 500 ++ "...".toList) ∧
      ((clean_text (joinPages pages)).length ≤ 500 →
        pv = clean_text (joinPages pages)) := by
  refine ⟨preview (clean_text (joinPages pages)),
    store ++ [⟨fid, sec fn, clean_text (joinPages pages)⟩], ?_, ?_, ?_⟩
  · simp [upload_pdf, hfn, hok]
  · intro h; simp [preview, h]
  · intro h; simp [preview, Nat.not_lt.mpr h]

/-- C7 witness: a one-page document with a short text is previewed in
full with no ellipsis appended. -/
theorem claim_C7_witness :
    ∃ pv st,
      upload_pdf id [] ⟨true, "a.pdf".toList, .ok ["hi".toList]⟩ "u1".toList =
        .ok ⟨200, .ok "u1".toList (id "a.pdf".toList)
          (clean_text (joinPages ["hi".toList])).length pv, st⟩ ∧
      (500 < (clean_text (joinPages ["hi".toList])).length →
        pv = (clean_text (joinPages ["hi".toList])).take 500 ++ "...".toList) ∧
      ((clean_text (joinPages ["hi".toList])).length ≤ 500 →
        pv = clean_text (joinPages ["hi".toList])) :=
  claim_C7 id [] "a.pdf".toList "u1".toList ["hi".toList] (by decide) (by decide)

/-- C8: a query on a known identifier with non-empty stored text still
answers with status 200 when the remote completion call fails, the
response field carrying the error-prefixed string in place of the
model answer. -/
theorem claim_C8 (store : List StoredFile) (fid p e : List Char)
    (c : Char) (t : List Char)
    (hlook : storeText store fid = some (c :: t)) :
    query_pdf store ⟨true, true, true, fid, p⟩ (.failure e) =
      ⟨200, .ok fid p (errAI ++ e), some (buildPrompt (c :: t) p)⟩ ∧
    startsWithL errorWord (errAI ++ e) = true := by
  refine ⟨?_, rfl⟩
  simp [query_pdf, hlook, aiResponse]

/-- C8 witness: the failing-remote query at a concrete store. -/
theorem claim_C8_witness :
    query_pdf [⟨"i1".toList, "f.pdf".toList, "hello".toList⟩]
      ⟨true, true, true, "i1".toList, "why".toList⟩ (.failure "down".toList) =
      ⟨200, .ok "i1".toList "why".toList (errAI ++ "down".toList),
        some (buildPrompt "hello".toList "why".toList)⟩ ∧
    startsWithL errorWord (errAI ++ "down".toList) = true :=
  claim_C8 [⟨"i1".toList, "f.pdf".toList, "hello".toList⟩]
    "i1".toList "why".toList "down".toList 'h' "ello".toList (by decide)

/-- C9: every upload whose filename does not pass the case-insensitive
extension allowlist is answered with status 400 and an error body, and
the session store is returned unchanged. -/
theorem claim_C9 (sec : List Char → List Char) (store : List StoredFile)
    (req : UploadRequest) (fid : List Char)
    (h : allowed_file req.filename = false) :
    ∃ msg, upload_pdf sec store req fid = .ok ⟨400, .err msg, store⟩ := by
  unfold upload_pdf
  cases hfp : req.hasFilePart with
  | false => exact ⟨noFilePartMsg, by simp⟩
  | true =>
    by_cases hfn : req.filename = []
    · exact ⟨noFileSelectedMsg, by simp [hfn]⟩
    · exact ⟨notAllowedMsg, by simp [hfn, h]⟩

/-- C9 witness: uploading a file named report.txt is rejected with
status 400 and leaves the store unchanged. -/
theorem claim_C9_witness :
    ∃ msg, upload_pdf id [] ⟨true, "report.txt".toList, .ok ["x".toList]⟩ "u1".toList =
      .ok ⟨400, .err msg, []⟩ :=
  claim_C9 id [] ⟨true, "report.txt".toList, .ok ["x".toList]⟩ "u1".toList (by decide)

/-- C10: the prompt built at both call sites places the literal
three-character ellipsis immediately after the embedded excerpt even
when the context is short enough that the excerpt is the whole
context, so the prompt reads as truncated whether or not truncation
occurred. -/
theorem claim_C10 (ctx q : List Char) (h : ctx.length ≤ 4000) :
    buildPrompt ctx q =
      promptPre ++ ctx ++
        ('.' :: '.' :: '.' :: "\n\nBased on this document, please answer: ".toList) ++ q ∧
    ctx.take 4000 = ctx := by
  have ht : ctx.take 4000 = ctx := List.take_of_length_le h
  have hd : promptPost =
      '.' :: '.' :: '.' :: "\n\nBased on this document, please answer: ".toList := rfl
  refine ⟨?_, ht⟩
  rw [buildPrompt, ht, hd]

/-- C10 witness: a short context is embedded whole and still followed
by the ellipsis. -/
theorem claim_C10_witness :
    buildPrompt "tiny".toList "q".toList =
      promptPre ++ "tiny".toList ++
        ('.' :: '.' :: '.' :: "\n\nBased on this document, please answer: ".toList) ++
        "q".toList ∧
    ("tiny".toList).take 4000 = "tiny".toList :=
  claim_C10 "tiny".toList "q".toList (by decide)

end PdfBackend
